import Mathlib

/-!
Verification of the caching layer of the screener repository.

The development shallowly embeds the caching code:

* `src/lib/cache/cacheService.ts` — the layered cache: an in-memory store
  (a JS object `memoryCache` plus a running byte counter `memoryCacheSize`)
  with TTL expiry, a 30 MiB size ceiling enforced by expiry-ordered
  eviction (`enforceSizeLimit`), and a Redis tier tried first with fallback
  to memory on failure.
* `src/lib/cache/redisCache.server.ts` — the server-only Redis adapter with
  its availability flags (`redisClient`, `isRedisConnecting`,
  `redisConnectionFailed`) and connection/error event handlers.
* the class-based `CacheService` revision (Redis + snapshot/restore to a
  local file), whose `createSnapshot` / `saveSnapshotToLocal` /
  `loadSnapshotFromLocal` implement the snapshot round trip.
* the simplified local-only cache service (in-memory only, no size bound).

Modelling conventions, stated once here:

* JS `Date.now()` timestamps and TTLs are integers (`Int`); the JS value
  `Infinity` used for "no expiry" is the `Expiry.inf` constructor.
* A JS object used as a string-keyed map is an association list with the
  JS property semantics: assigning an existing key overwrites it in place,
  assigning a fresh key appends it, `delete` removes the binding.  Keys of
  a JS object are unique, which the theorems carry as a `NodupKeys`
  hypothesis where needed (it holds for every reachable store).
* `estimateSize(obj) = JSON.stringify(obj).length * 2` is the source's
  size estimate.  The serialization length is kept as an explicit function
  parameter `estimateSize : CacheValue V → Nat` of the embedding, since
  JSON.stringify is deterministic and every claim holds for an arbitrary
  measure; concrete witnesses instantiate it with executable functions.
* Stored payloads are the values the application caches (JSON-serializable
  data); `JSON.stringify` is total on them, so the size measure is total.
  The one place the spec allows serialization to throw (a non-serializable
  value passed to `set`) is modelled by the `serOk` flag of `setPublic`:
  the throw happens at the `estimateSize` call, before any mutation, and
  is swallowed by the outer `catch` of `set`.
-/

namespace SC

/-! ## Association lists with JS object semantics -/

section Assoc

variable {β : Type*}

/-- Property lookup on a JS object: the (unique) binding of the key. -/
def lookupA : List (String × β) → String → Option β
  | [], _ => none
  | p :: t, k => if p.1 = k then some p.2 else lookupA t k

/-- The keys of the object, in property order. -/
def keysA (st : List (String × β)) : List String :=
  st.map Prod.fst

/-- JS property assignment: overwrite in place if the key is present,
append otherwise. -/
def insertA (st : List (String × β)) (k : String) (v : β) : List (String × β) :=
  if k ∈ keysA st then
    st.map (fun p => if p.1 = k then (k, v) else p)
  else
    st ++ [(k, v)]

/-- JS `delete obj[k]`. -/
def removeA (st : List (String × β)) (k : String) : List (String × β) :=
  st.filter (fun p => p.1 != k)

/-- Keys of a JS object are pairwise distinct. -/
def NodupKeys (st : List (String × β)) : Prop :=
  (keysA st).Nodup

theorem lookupA_eq_none_iff {st : List (String × β)} {k : String} :
    lookupA st k = none ↔ k ∉ keysA st := by
  induction st with
  | nil => simp [lookupA, keysA]
  | cons p t ih =>
    by_cases h : p.1 = k <;> simp [lookupA, keysA, h, ih, eq_comm (a := k)] at *

theorem mem_of_lookupA {k : String} {v : β} :
    ∀ {st : List (String × β)}, lookupA st k = some v → (k, v) ∈ st := by
  intro st
  induction st with
  | nil => intro h; simp [lookupA] at h
  | cons p t ih =>
    intro h
    rw [lookupA] at h
    by_cases hpk : p.1 = k
    · rw [if_pos hpk] at h
      injection h with h
      exact List.mem_cons.2 (Or.inl (by rcases p with ⟨a, b⟩; simp_all))
    · rw [if_neg hpk] at h
      exact List.mem_cons.2 (Or.inr (ih h))

theorem lookupA_of_mem_nodup {k : String} {v : β} :
    ∀ {st : List (String × β)}, NodupKeys st → (k, v) ∈ st → lookupA st k = some v := by
  intro st
  induction st with
  | nil => intro _ h; simp at h
  | cons p t ih =>
    intro hnd h
    have hnd' : p.1 ∉ keysA t ∧ NodupKeys t := by
      unfold NodupKeys keysA at hnd ⊢
      simpa [List.nodup_cons] using hnd
    rw [lookupA]
    rcases List.mem_cons.1 h with h | h
    · rw [← h]; simp
    · have hpk : p.1 ≠ k := by
        intro he
        exact hnd'.1 (by unfold keysA; rw [he]; exact List.mem_map_of_mem Prod.fst h)
      rw [if_neg hpk]
      exact ih hnd'.2 h

theorem lookupA_map_replace (k q : String) (v : β) :
    ∀ t : List (String × β),
      lookupA (t.map fun p => if p.1 = k then (k, v) else p) q =
        if q = k then (lookupA t k).map (fun _ => v) else lookupA t q := by
  intro t
  induction t with
  | nil => by_cases hqk : q = k <;> simp [lookupA, hqk]
  | cons p t ih =>
    by_cases hpk : p.1 = k
    · by_cases hqk : q = k
      · simp [lookupA, hpk, hqk]
      · simp only [List.map_cons, if_pos hpk, lookupA, if_neg hqk]
        rw [if_neg (fun h : k = q => hqk h.symm), if_neg (hpk ▸ fun h : p.1 = q => hqk (hpk ▸ h).symm)]
        simpa [hqk] using ih
    · by_cases hqk : q = k
      · subst hqk
        simp only [List.map_cons, if_neg hpk, lookupA, if_neg hpk]
        simpa using ih
      · simp only [List.map_cons, if_neg hpk, lookupA]
        by_cases hpq : p.1 = q
        · simp [hpq, hqk]
        · simp only [if_neg hpq]
          simpa [hqk] using ih

theorem lookupA_append_single (k q : String) (v : β) :
    ∀ t : List (String × β),
      lookupA (t ++ [(k, v)]) q =
        match lookupA t q with
        | some w => some w
        | none => if k = q then some v else none := by
  intro t
  induction t with
  | nil => simp [lookupA]
  | cons p t ih =>
    rw [List.cons_append, lookupA, lookupA]
    by_cases hpq : p.1 = q
    · simp [hpq]
    · simp only [if_neg hpq]
      exact ih

theorem lookupA_insertA_self (st : List (String × β)) (k : String) (v : β) :
    lookupA (insertA st k v) k = some v := by
  unfold insertA
  by_cases h : k ∈ keysA st
  · rw [if_pos h, lookupA_map_replace, if_pos rfl]
    cases hc : lookupA st k with
    | none => exact absurd (lookupA_eq_none_iff.1 hc) (fun hn => hn h)
    | some w => rfl
  · rw [if_neg h, lookupA_append_single, lookupA_eq_none_iff.2 h]
    simp

theorem lookupA_insertA_ne (st : List (String × β)) {k q : String} (v : β)
    (hne : q ≠ k) : lookupA (insertA st k v) q = lookupA st q := by
  unfold insertA
  by_cases h : k ∈ keysA st
  · rw [if_pos h, lookupA_map_replace, if_neg hne]
  · rw [if_neg h, lookupA_append_single]
    cases hc : lookupA st q with
    | none => rw [if_neg (Ne.symm hne)]
    | some w => rfl

theorem keysA_insertA_of_mem (st : List (String × β)) {k : String} (v : β)
    (h : k ∈ keysA st) : keysA (insertA st k v) = keysA st := by
  unfold insertA
  simp only [if_pos h]
  unfold keysA
  rw [List.map_map]
  apply List.map_congr_left
  intro p _
  by_cases hpk : p.1 = k <;> simp [hpk]

theorem keysA_insertA_of_not_mem (st : List (String × β)) {k : String} (v : β)
    (h : k ∉ keysA st) : keysA (insertA st k v) = keysA st ++ [k] := by
  unfold insertA
  simp only [if_neg h]
  unfold keysA
  simp

theorem nodupKeys_insertA {st : List (String × β)} (k : String) (v : β)
    (hnd : NodupKeys st) : NodupKeys (insertA st k v) := by
  unfold NodupKeys
  by_cases h : k ∈ keysA st
  · rw [keysA_insertA_of_mem st v h]
    exact hnd
  · rw [keysA_insertA_of_not_mem st v h]
    simpa [List.nodup_append] using ⟨hnd, h⟩

theorem removeA_sublist (st : List (String × β)) (k : String) :
    (removeA st k).Sublist st :=
  List.filter_sublist st

theorem nodupKeys_removeA {st : List (String × β)} (k : String)
    (hnd : NodupKeys st) : NodupKeys (removeA st k) := by
  unfold NodupKeys keysA at *
  exact List.Nodup.sublist (List.Sublist.map Prod.fst (removeA_sublist st k)) hnd

theorem lookupA_removeA_self (st : List (String × β)) (k : String) :
    lookupA (removeA st k) k = none := by
  rw [lookupA_eq_none_iff]
  unfold removeA keysA
  simp only [List.mem_map]
  rintro ⟨p, hp, hpk⟩
  rw [List.mem_filter] at hp
  have := hp.2
  simp [hpk] at this

theorem lookupA_removeA_ne {k q : String} (hne : q ≠ k) :
    ∀ st : List (String × β), lookupA (removeA st k) q = lookupA st q := by
  intro st
  induction st with
  | nil => rfl
  | cons p t ih =>
    unfold removeA at *
    by_cases hpk : p.1 = k
    · rw [List.filter_cons_of_neg (by simp [hpk])]
      rw [lookupA, if_neg (by rw [hpk]; exact Ne.symm hne)]
      exact ih
    · rw [List.filter_cons_of_pos (by simp [hpk])]
      rw [lookupA, lookupA]
      by_cases hpq : p.1 = q
      · simp [hpq]
      · simp only [if_neg hpq]
        exact ih

theorem nodupKeys_cons {p : String × β} {l : List (String × β)}
    (hnd : NodupKeys (p :: l)) : p.1 ∉ keysA l ∧ NodupKeys l := by
  unfold NodupKeys keysA at *
  simpa [List.nodup_cons] using hnd

theorem removeA_eq_self_of_not_mem (st : List (String × β)) {k : String}
    (h : k ∉ keysA st) : removeA st k = st := by
  unfold removeA
  apply List.filter_eq_self.2
  intro p hp
  simp only [bne_iff_ne, ne_eq]
  intro he
  exact h (by unfold keysA; rw [← he]; exact List.mem_map_of_mem Prod.fst hp)

end Assoc

/-! ## Expiry timestamps

`set` stores `expiry = ttl > 0 ? Date.now() + ttl * 1000 : Infinity`.
`Expiry.fin t` is a finite JS timestamp, `Expiry.inf` is `Infinity`. -/

inductive Expiry where
  | fin (t : Int)
  | inf
deriving DecidableEq, Repr

/-- The JS comparison `expiry < now` used by the expiry check
(`Infinity < now` is false for every finite `now`). -/
def Expiry.isExpired : Expiry → Int → Bool
  | .fin t, now => decide (t < now)
  | .inf, _ => false

/-- The order on expiries realised by the eviction comparator
`(a, b) => a[1].expiry - b[1].expiry` (ascending; `Infinity` sorts last). -/
def Expiry.Le : Expiry → Expiry → Prop
  | .fin a, .fin b => a ≤ b
  | .fin _, .inf => True
  | .inf, .fin _ => False
  | .inf, .inf => True

/-- Strict version of `Expiry.Le`: expires strictly sooner. -/
def Expiry.Lt : Expiry → Expiry → Prop
  | .fin a, .fin b => a < b
  | .fin _, .inf => True
  | .inf, _ => False

instance : DecidableRel Expiry.Le := by
  intro a b
  cases a <;> cases b <;> unfold Expiry.Le <;> infer_instance

instance : DecidableRel Expiry.Lt := by
  intro a b
  cases a <;> cases b <;> unfold Expiry.Lt <;> infer_instance

theorem Expiry.Le.total : ∀ a b : Expiry, Expiry.Le a b ∨ Expiry.Le b a := by
  intro a b
  cases a <;> cases b <;> simp [Expiry.Le] <;> omega

theorem Expiry.Le.trans' : ∀ {a b c : Expiry}, Expiry.Le a b → Expiry.Le b c → Expiry.Le a c := by
  intro a b c hab hbc
  cases a <;> cases b <;> cases c <;> simp [Expiry.Le] at * <;> omega

theorem Expiry.not_lt_of_le {a b : Expiry} (h : Expiry.Le a b) : ¬ Expiry.Lt b a := by
  cases a <;> cases b <;> simp [Expiry.Le, Expiry.Lt] at * <;> omega

/-! ## The in-memory tier of `cacheService.ts`

Module state: `const memoryCache: Record<string, CacheValue<unknown>> = {}`
and `let memoryCacheSize = 0`. -/

/-- Source: `type CacheValue<T> = { value: T; expiry: number }`. -/
structure CacheValue (V : Type) where
  value : V
  expiry : Expiry
deriving DecidableEq, Repr

/-- Source: `const MAX_CACHE_SIZE = 30 * 1024 * 1024` (30 MiB). -/
def MAX_CACHE_SIZE : Nat := 30 * 1024 * 1024

/-- The module state of the in-memory tier: the `memoryCache` object and the
`memoryCacheSize` counter (a JS number, hence `Int`). -/
structure MemState (V : Type) where
  store : List (String × CacheValue V)
  size : Int
deriving DecidableEq, Repr

/-- The fresh module state: empty object, zero counter. -/
def initMem (V : Type) : MemState V := ⟨[], 0⟩

section MemOps

variable {V : Type} (estimateSize : CacheValue V → Nat)

/-- Aggregate estimated size of the entries currently resident. -/
def totalSize (st : List (String × CacheValue V)) : Nat :=
  (st.map fun p => estimateSize p.2).sum

/-- The eviction comparator of `enforceSizeLimit`:
`entries.sort((a, b) => a[1].expiry - b[1].expiry)` sorts ascending by
expiry; ties are broken arbitrarily (modelled by insertion sort). -/
def expiryOrder (a b : String × CacheValue V) : Prop :=
  Expiry.Le a.2.expiry b.2.expiry

instance : DecidableRel (expiryOrder (V := V)) := fun a b =>
  inferInstanceAs (Decidable (Expiry.Le a.2.expiry b.2.expiry))

instance : IsTotal (String × CacheValue V) expiryOrder :=
  ⟨fun a b => Expiry.Le.total a.2.expiry b.2.expiry⟩

instance : IsTrans (String × CacheValue V) expiryOrder :=
  ⟨fun _ _ _ hab hbc => Expiry.Le.trans' hab hbc⟩

/-- The `while` loop of `enforceSizeLimit`: walk the sorted snapshot of
`Object.entries(memoryCache)`, and while
`memoryCacheSize + newItemSize > MAX_CACHE_SIZE` evict the head entry
(delete it and subtract its estimated size). -/
def evictLoop (newItemSize : Nat) :
    List (String × CacheValue V) → MemState V → MemState V
  | [], s => s
  | (k, e) :: rest, s =>
    if (MAX_CACHE_SIZE : Int) < s.size + newItemSize then
      evictLoop newItemSize rest ⟨removeA s.store k, s.size - estimateSize e⟩
    else s

/-- Function `enforceSizeLimit(newItemSize)`: if the counter plus the incoming size
exceeds the ceiling, evict entries in ascending expiry order until it fits
or the store is empty. -/
def enforceSizeLimit (s : MemState V) (newItemSize : Nat) : MemState V :=
  if (MAX_CACHE_SIZE : Int) < s.size + newItemSize then
    evictLoop estimateSize newItemSize (List.insertionSort expiryOrder s.store) s
  else s

/-- The entry built by `set`:
`expiry = ttl > 0 ? Date.now() + ttl * 1000 : Infinity`. -/
def mkEntry (v : V) (ttl now : Int) : CacheValue V :=
  ⟨v, if 0 < ttl then Expiry.fin (now + ttl * 1000) else Expiry.inf⟩

/-- The memory-cache branch of `set` (lines 77–84 of `cacheService.ts`):
estimate the size of `{ value, expiry }`, enforce the ceiling, store the
entry, add its size to the counter.  Note that an overwritten previous
entry under the same key is not subtracted from the counter. -/
def memSet (s : MemState V) (k : String) (v : V) (ttl now : Int) : MemState V :=
  ⟨insertA (enforceSizeLimit estimateSize s (estimateSize (mkEntry v ttl now))).store
      k (mkEntry v ttl now),
    (enforceSizeLimit estimateSize s (estimateSize (mkEntry v ttl now))).size +
      estimateSize (mkEntry v ttl now)⟩

/-- The memory-cache branch of `get` (lines 112–131): missing key is a miss;
an entry with `expiry < Date.now()` is deleted (its estimated size deducted)
and reported as a miss; otherwise the value is returned.  The first
component is the returned value, the second the resulting module state. -/
def memGet (s : MemState V) (k : String) (now : Int) : Option V × MemState V :=
  match lookupA s.store k with
  | none => (none, s)
  | some cached =>
    if cached.expiry.isExpired now then
      (none, ⟨removeA s.store k, s.size - estimateSize cached⟩)
    else
      (some cached.value, s)

/-- The memory-cache part of `del` (lines 154–160): if present, deduct the
entry's estimated size and delete it. -/
def memDel (s : MemState V) (k : String) : MemState V :=
  match lookupA s.store k with
  | none => s
  | some cached => ⟨removeA s.store k, s.size - estimateSize cached⟩

/-- The memory-cache part of `clear` (lines 182–186): delete every key and
reset the counter to zero. -/
def memClear (_s : MemState V) : MemState V := ⟨[], 0⟩

end MemOps

theorem Expiry.not_isExpired_iff (e : Expiry) (now : Int) :
    e.isExpired now = false ↔ Expiry.Le (.fin now) e := by
  cases e <;> simp [Expiry.isExpired, Expiry.Le]

section MemOpsEqns

variable {V : Type} (estimateSize : CacheValue V → Nat)

theorem memGet_of_none {s : MemState V} {k : String} {now : Int}
    (h : lookupA s.store k = none) :
    memGet estimateSize s k now = (none, s) := by
  unfold memGet
  rw [h]

theorem memGet_of_expired {s : MemState V} {k : String} {now : Int}
    {c : CacheValue V} (h : lookupA s.store k = some c)
    (hx : c.expiry.isExpired now = true) :
    memGet estimateSize s k now =
      (none, ⟨removeA s.store k, s.size - estimateSize c⟩) := by
  unfold memGet
  rw [h]
  simp [hx]

theorem memGet_of_live {s : MemState V} {k : String} {now : Int}
    {c : CacheValue V} (h : lookupA s.store k = some c)
    (hx : c.expiry.isExpired now = false) :
    memGet estimateSize s k now = (some c.value, s) := by
  unfold memGet
  rw [h]
  simp [hx]

end MemOpsEqns

section ClaimC1

variable {V : Type}

/-- Claim C1 (amended): for every key, value and ttl (including `ttl ≤ 0`,
which stores `Infinity`), `set` followed immediately by `get` at the same
timestamp returns the value; `get` returns the stored value **iff** an
entry exists whose expiry is **at least** the current time (the code keeps
an entry read at exactly its expiry instant: the check is
`cached.expiry < Date.now()`, so absence starts only once `now` strictly
exceeds the expiry, not at `expiry = now` as the claim's strict `>`
requires); and a lazily-discovered expired entry is removed by the read,
its estimated size being deducted from the running counter. -/
theorem claim_C1_ttl_contract (estimateSize : CacheValue V → Nat) :
    (∀ (s : MemState V) (k : String) (v : V) (ttl now : Int),
      (memGet estimateSize (memSet estimateSize s k v ttl now) k now).1 = some v)
    ∧ (∀ (s : MemState V) (k : String) (now : Int) (v : V),
      (memGet estimateSize s k now).1 = some v ↔
        ∃ e, lookupA s.store k = some e ∧ e.value = v ∧ Expiry.Le (.fin now) e.expiry)
    ∧ (∀ (s : MemState V) (k : String) (now : Int) (e : CacheValue V),
      lookupA s.store k = some e → e.expiry.isExpired now = true →
        (memGet estimateSize s k now).1 = none ∧
        (memGet estimateSize s k now).2.store = removeA s.store k ∧
        (memGet estimateSize s k now).2.size = s.size - estimateSize e) := by
  refine ⟨?_, ?_, ?_⟩
  · intro s k v ttl now
    have hfresh : (mkEntry v ttl now).expiry.isExpired now = false := by
      unfold mkEntry
      rcases lt_or_ge 0 ttl with h | h
      · rw [if_pos h]
        simp [Expiry.isExpired]
        nlinarith
      · rw [if_neg (not_lt.2 h)]
        rfl
    rw [memGet_of_live estimateSize (s := memSet estimateSize s k v ttl now)
      (lookupA_insertA_self _ _ _) hfresh]
    rfl
  · intro s k now v
    cases hc : lookupA s.store k with
    | none =>
      rw [memGet_of_none estimateSize hc]
      simp
    | some cached =>
      cases hexp : cached.expiry.isExpired now with
      | true =>
        rw [memGet_of_expired estimateSize hc hexp]
        constructor
        · intro h
          simp at h
        · rintro ⟨e, he, -, hle⟩
          injection he with he
          subst he
          have hfalse := (Expiry.not_isExpired_iff _ _).2 hle
          rw [hexp] at hfalse
          cases hfalse
      | false =>
        rw [memGet_of_live estimateSize hc hexp]
        constructor
        · intro h
          injection h with h
          exact ⟨cached, rfl, h, (Expiry.not_isExpired_iff _ _).1 hexp⟩
        · rintro ⟨e, he, hv, -⟩
          injection he with he
          subst he
          simp [hv]
  · intro s k now e he hexp
    rw [memGet_of_expired estimateSize he hexp]
    exact ⟨rfl, rfl, rfl⟩

/-- Counterexample to claim C1 as stated: with an entry whose expiry is the
timestamp 5, a `get` at `now = 5` returns the stored value even though the
expiry is not *strictly* greater than the current time, contradicting the
claim's "if and only if … strictly greater" characterisation. -/
theorem claim_C1_counterexample :
    (memGet (fun e => e.value)
      (⟨[("k", ⟨(3 : Nat), Expiry.fin 5⟩)], 7⟩ : MemState Nat) "k" 5).1 = some 3
    ∧ ¬ Expiry.Lt (Expiry.fin 5) (Expiry.fin 5) := by
  constructor
  · decide
  · simp [Expiry.Lt]

/-- Witness for C1: the amended theorem applied to a concrete expired entry
(expiry 5, read at time 9): the read misses, deletes the entry and deducts
its estimated size from the counter. -/
theorem claim_C1_ttl_contract_witness :
    (memGet (fun e => e.value)
      (⟨[("k", ⟨(3 : Nat), Expiry.fin 5⟩)], 7⟩ : MemState Nat) "k" 9).1 = none
    ∧ (memGet (fun e => e.value)
      (⟨[("k", ⟨(3 : Nat), Expiry.fin 5⟩)], 7⟩ : MemState Nat) "k" 9).2.store =
        removeA [("k", ⟨(3 : Nat), Expiry.fin 5⟩)] "k"
    ∧ (memGet (fun e => e.value)
      (⟨[("k", ⟨(3 : Nat), Expiry.fin 5⟩)], 7⟩ : MemState Nat) "k" 9).2.size = 7 - 3 :=
  (claim_C1_ttl_contract (fun e : CacheValue Nat => e.value)).2.2
    ⟨[("k", ⟨3, Expiry.fin 5⟩)], 7⟩ "k" 9 ⟨3, Expiry.fin 5⟩ (by decide) (by decide)

end ClaimC1

/-! ## Size accounting and the eviction loop -/

theorem Expiry.le_of_lt {a b : Expiry} (h : Expiry.Lt a b) : Expiry.Le a b := by
  cases a <;> cases b <;> simp [Expiry.Lt, Expiry.Le] at * <;> omega

section SizeLemmas

variable {V : Type} (estimateSize : CacheValue V → Nat)

theorem nodupKeys_of_perm {st l : List (String × CacheValue V)}
    (hp : st.Perm l) (hnd : NodupKeys st) : NodupKeys l :=
  ((hp.map Prod.fst).nodup_iff).1 hnd

theorem map_replace_eq_self {k : String} {e : CacheValue V} :
    ∀ t : List (String × CacheValue V), k ∉ keysA t →
      (t.map fun p => if p.1 = k then (k, e) else p) = t := by
  intro t ht
  have : ∀ p ∈ t, (if p.1 = k then (k, e) else p) = p := by
    intro p hp
    rw [if_neg]
    intro hpk
    exact ht (by unfold keysA; rw [← hpk]; exact List.mem_map_of_mem Prod.fst hp)
  calc (t.map fun p => if p.1 = k then (k, e) else p) = t.map id := List.map_congr_left this
  _ = t := List.map_id t

theorem totalSize_nil : totalSize estimateSize ([] : List (String × CacheValue V)) = 0 := rfl

theorem totalSize_cons (p : String × CacheValue V) (t : List (String × CacheValue V)) :
    totalSize estimateSize (p :: t) = estimateSize p.2 + totalSize estimateSize t := by
  unfold totalSize
  simp

theorem totalSize_append_single (st : List (String × CacheValue V)) (k : String)
    (e : CacheValue V) :
    totalSize estimateSize (st ++ [(k, e)]) = totalSize estimateSize st + estimateSize e := by
  unfold totalSize
  simp

theorem removeA_cons_of_eq {p : String × CacheValue V} {k : String}
    (t : List (String × CacheValue V)) (hpk : p.1 = k) :
    removeA (p :: t) k = removeA t k := by
  unfold removeA
  rw [List.filter_cons_of_neg (by simp [hpk])]

theorem removeA_cons_of_ne {p : String × CacheValue V} {k : String}
    (t : List (String × CacheValue V)) (hpk : ¬ p.1 = k) :
    removeA (p :: t) k = p :: removeA t k := by
  unfold removeA
  rw [List.filter_cons_of_pos (by simp [hpk])]

theorem totalSize_removeA {k : String} {e : CacheValue V} :
    ∀ {st : List (String × CacheValue V)}, NodupKeys st → lookupA st k = some e →
      totalSize estimateSize (removeA st k) + estimateSize e = totalSize estimateSize st := by
  intro st
  induction st with
  | nil => intro _ h; simp [lookupA] at h
  | cons p t ih =>
    intro hnd h
    obtain ⟨hkt, hndt⟩ := nodupKeys_cons hnd
    rw [lookupA] at h
    by_cases hpk : p.1 = k
    · rw [if_pos hpk] at h
      injection h with h
      rw [removeA_cons_of_eq t hpk, removeA_eq_self_of_not_mem t (hpk ▸ hkt),
        totalSize_cons, h]
      omega
    · rw [if_neg hpk] at h
      rw [removeA_cons_of_ne t hpk, totalSize_cons, totalSize_cons]
      have := ih hndt h
      omega

theorem totalSize_map_replace {k : String} {e : CacheValue V} :
    ∀ t : List (String × CacheValue V), NodupKeys t →
      totalSize estimateSize (t.map fun p => if p.1 = k then (k, e) else p) ≤
        totalSize estimateSize t + estimateSize e := by
  intro t
  induction t with
  | nil =>
    intro _
    simp [totalSize]
  | cons p t ih =>
    intro hnd
    obtain ⟨hkt, hndt⟩ := nodupKeys_cons hnd
    rw [List.map_cons]
    by_cases hpk : p.1 = k
    · rw [if_pos hpk, map_replace_eq_self t (hpk ▸ hkt), totalSize_cons, totalSize_cons]
      have h2 : estimateSize ((k, e) : String × CacheValue V).2 = estimateSize e := rfl
      omega
    · rw [if_neg hpk, totalSize_cons, totalSize_cons]
      have := ih hndt
      omega

theorem totalSize_insertA_le (st : List (String × CacheValue V)) (k : String)
    (e : CacheValue V) (hnd : NodupKeys st) :
    totalSize estimateSize (insertA st k e) ≤
      totalSize estimateSize st + estimateSize e := by
  unfold insertA
  by_cases h : k ∈ keysA st
  · rw [if_pos h]
    exact totalSize_map_replace estimateSize st hnd
  · rw [if_neg h, totalSize_append_single]

theorem evictLoop_spec (n : Nat) :
    ∀ (l : List (String × CacheValue V)) (s : MemState V),
      s.store.Perm l → NodupKeys s.store →
      (totalSize estimateSize s.store : Int) ≤ s.size →
      ∃ front rest, l = front ++ rest ∧
        (evictLoop estimateSize n l s).store.Perm rest ∧
        NodupKeys (evictLoop estimateSize n l s).store ∧
        ((totalSize estimateSize (evictLoop estimateSize n l s).store : Int) ≤
          (evictLoop estimateSize n l s).size) ∧
        ((evictLoop estimateSize n l s).size + n ≤ MAX_CACHE_SIZE ∨
          (evictLoop estimateSize n l s).store = []) := by
  intro l
  induction l with
  | nil =>
    intro s hp hnd hts
    exact ⟨[], [], rfl, hp, hnd, hts, Or.inr hp.eq_nil⟩
  | cons he l ih =>
    intro s hp hnd hts
    obtain ⟨k, e⟩ := he
    by_cases hcond : (MAX_CACHE_SIZE : Int) < s.size + n
    · have hstep : evictLoop estimateSize n ((k, e) :: l) s =
          evictLoop estimateSize n l ⟨removeA s.store k, s.size - estimateSize e⟩ := by
        conv_lhs => rw [evictLoop]
        rw [if_pos hcond]
      have hmem : (k, e) ∈ s.store := hp.symm.subset (List.mem_cons_self _ _)
      have hlook : lookupA s.store k = some e := lookupA_of_mem_nodup hnd hmem
      have hndl : NodupKeys ((k, e) :: l) := nodupKeys_of_perm hp hnd
      have hkl : k ∉ keysA l := (nodupKeys_cons hndl).1
      have hperm' : (removeA s.store k).Perm l := by
        have h1 : (removeA s.store k).Perm (removeA ((k, e) :: l) k) := hp.filter _
        have h2 : removeA ((k, e) :: l) k = l := by
          unfold removeA
          rw [List.filter_cons_of_neg (by simp)]
          exact removeA_eq_self_of_not_mem l hkl
        rwa [h2] at h1
      have hnd' : NodupKeys (removeA s.store k) := nodupKeys_removeA k hnd
      have hts' : (totalSize estimateSize (removeA s.store k) : Int) ≤
          s.size - estimateSize e := by
        have h3 := totalSize_removeA estimateSize hnd hlook
        have h4 : (totalSize estimateSize (removeA s.store k) : Int) + estimateSize e =
            totalSize estimateSize s.store := by exact_mod_cast congrArg (Nat.cast : Nat → Int) h3
        omega
      obtain ⟨front, rest, hsplit, hpr, hndr, htsr, hexit⟩ :=
        ih ⟨removeA s.store k, s.size - estimateSize e⟩ hperm' hnd' hts'
      rw [hstep]
      exact ⟨(k, e) :: front, rest, by rw [hsplit, List.cons_append], hpr, hndr, htsr, hexit⟩
    · have hstep : evictLoop estimateSize n ((k, e) :: l) s = s := by
        conv_lhs => rw [evictLoop]
        rw [if_neg hcond]
      rw [hstep]
      exact ⟨[], (k, e) :: l, rfl, hp, hnd, hts, Or.inl (by omega)⟩

theorem evictLoop_split (n : Nat) :
    ∀ (l : List (String × CacheValue V)) (s : MemState V),
      s.store.Perm l → NodupKeys s.store →
      ∃ front rest, l = front ++ rest ∧
        (evictLoop estimateSize n l s).store.Perm rest := by
  intro l
  induction l with
  | nil =>
    intro s hp _
    exact ⟨[], [], rfl, hp⟩
  | cons he l ih =>
    intro s hp hnd
    obtain ⟨k, e⟩ := he
    by_cases hcond : (MAX_CACHE_SIZE : Int) < s.size + n
    · have hstep : evictLoop estimateSize n ((k, e) :: l) s =
          evictLoop estimateSize n l ⟨removeA s.store k, s.size - estimateSize e⟩ := by
        conv_lhs => rw [evictLoop]
        rw [if_pos hcond]
      have hndl : NodupKeys ((k, e) :: l) := nodupKeys_of_perm hp hnd
      have hkl : k ∉ keysA l := (nodupKeys_cons hndl).1
      have hperm' : (removeA s.store k).Perm l := by
        have h1 : (removeA s.store k).Perm (removeA ((k, e) :: l) k) := hp.filter _
        have h2 : removeA ((k, e) :: l) k = l := by
          rw [removeA_cons_of_eq l rfl]
          exact removeA_eq_self_of_not_mem l hkl
        rwa [h2] at h1
      have hnd' : NodupKeys (removeA s.store k) := nodupKeys_removeA k hnd
      obtain ⟨front, rest, hsplit, hpr⟩ :=
        ih ⟨removeA s.store k, s.size - estimateSize e⟩ hperm' hnd'
      rw [hstep]
      exact ⟨(k, e) :: front, rest, by rw [hsplit, List.cons_append], hpr⟩
    · have hstep : evictLoop estimateSize n ((k, e) :: l) s = s := by
        conv_lhs => rw [evictLoop]
        rw [if_neg hcond]
      rw [hstep]
      exact ⟨[], (k, e) :: l, rfl, hp⟩

theorem enforceSizeLimit_spec (s : MemState V) (n : Nat) (hnd : NodupKeys s.store)
    (hts : (totalSize estimateSize s.store : Int) ≤ s.size) :
    NodupKeys (enforceSizeLimit estimateSize s n).store ∧
    ((totalSize estimateSize (enforceSizeLimit estimateSize s n).store : Int) ≤
      (enforceSizeLimit estimateSize s n).size) ∧
    ((enforceSizeLimit estimateSize s n).size + n ≤ MAX_CACHE_SIZE ∨
      (enforceSizeLimit estimateSize s n).store = []) := by
  unfold enforceSizeLimit
  by_cases hcond : (MAX_CACHE_SIZE : Int) < s.size + n
  · rw [if_pos hcond]
    obtain ⟨front, rest, _, _, hndr, htsr, hexit⟩ :=
      evictLoop_spec estimateSize n (List.insertionSort expiryOrder s.store) s
        (List.perm_insertionSort expiryOrder s.store).symm hnd hts
    exact ⟨hndr, htsr, hexit⟩
  · rw [if_neg hcond]
    exact ⟨hnd, hts, Or.inl (by omega)⟩

/-- The invariants carried through sequences of `set` calls: unique keys and
a counter dominating the aggregate resident size (the counter may exceed the
aggregate because `set` does not credit back an overwritten entry). -/
def sizeInvariant (s : MemState V) : Prop :=
  NodupKeys s.store ∧ (totalSize estimateSize s.store : Int) ≤ s.size

/-- The ceiling property claimed by the spec: the resident aggregate fits
under `MAX_CACHE_SIZE`, or the store holds exactly one entry whose size
alone exceeds the ceiling. -/
def withinCeiling (s : MemState V) : Prop :=
  totalSize estimateSize s.store ≤ MAX_CACHE_SIZE ∨
    ∃ k e, s.store = [(k, e)] ∧ MAX_CACHE_SIZE < estimateSize e

theorem memSet_spec (s : MemState V) (k : String) (v : V) (ttl now : Int)
    (hinv : sizeInvariant estimateSize s) :
    sizeInvariant estimateSize (memSet estimateSize s k v ttl now) ∧
    withinCeiling estimateSize (memSet estimateSize s k v ttl now) := by
  unfold sizeInvariant at hinv
  unfold sizeInvariant withinCeiling
  obtain ⟨hnd, hts⟩ := hinv
  obtain ⟨hnd1, hts1, hexit⟩ :=
    enforceSizeLimit_spec estimateSize s (estimateSize (mkEntry v ttl now)) hnd hts
  set item := mkEntry (V := V) v ttl now with hitem
  set s1 := enforceSizeLimit estimateSize s (estimateSize item) with hs1
  have hstore : (memSet estimateSize s k v ttl now).store = insertA s1.store k item := rfl
  have hsize : (memSet estimateSize s k v ttl now).size = s1.size + estimateSize item := rfl
  have htotal : totalSize estimateSize (insertA s1.store k item) ≤
      totalSize estimateSize s1.store + estimateSize item :=
    totalSize_insertA_le estimateSize s1.store k item hnd1
  constructor
  · refine ⟨?_, ?_⟩
    · rw [hstore]
      exact nodupKeys_insertA k item hnd1
    · rw [hstore, hsize]
      have : (totalSize estimateSize (insertA s1.store k item) : Int) ≤
          (totalSize estimateSize s1.store : Int) + estimateSize item := by
        exact_mod_cast htotal
      omega
  · rcases hexit with hfit | hempty
    · refine Or.inl ?_
      rw [hstore]
      have : (totalSize estimateSize (insertA s1.store k item) : Int) ≤ MAX_CACHE_SIZE := by
        have hcast : (totalSize estimateSize (insertA s1.store k item) : Int) ≤
            (totalSize estimateSize s1.store : Int) + estimateSize item := by
          exact_mod_cast htotal
        omega
      exact_mod_cast this
    · rw [hstore, hempty]
      have hins : insertA ([] : List (String × CacheValue V)) k item = [(k, item)] := rfl
      rw [hins]
      by_cases hbig : estimateSize item ≤ MAX_CACHE_SIZE
      · refine Or.inl ?_
        unfold totalSize
        simpa using hbig
      · exact Or.inr ⟨k, item, rfl, by omega⟩

end SizeLemmas

section ClaimC2

variable {V : Type}

/-- A sequence of `set(key, value, ttl)` calls issued at given timestamps
against the in-memory tier. -/
def runSets (estimateSize : CacheValue V → Nat) :
    List (String × V × Int × Int) → MemState V → MemState V
  | [], s => s
  | (k, v, ttl, now) :: ops, s =>
    runSets estimateSize ops (memSet estimateSize s k v ttl now)

theorem runSets_spec (estimateSize : CacheValue V → Nat) :
    ∀ (ops : List (String × V × Int × Int)) (s : MemState V),
      sizeInvariant estimateSize s → withinCeiling estimateSize s →
      sizeInvariant estimateSize (runSets estimateSize ops s) ∧
        withinCeiling estimateSize (runSets estimateSize ops s) := by
  intro ops
  induction ops with
  | nil => intro s h1 h2; exact ⟨h1, h2⟩
  | cons op ops ih =>
    intro s h1 _
    obtain ⟨k, v, ttl, now⟩ := op
    obtain ⟨h1', h2'⟩ := memSet_spec estimateSize s k v ttl now h1
    exact ih (memSet estimateSize s k v ttl now) h1' h2'

/-- Claim C2: after any sequence of `set` calls starting from the fresh
in-memory store, the aggregate estimated size of the resident entries never
exceeds the 30 MiB ceiling, except that the store may consist of exactly
one entry whose size alone exceeds the ceiling; and no entry is ever
rejected: directly after `set(k, v, ttl)` the store always holds the fresh
entry under `k`. -/
theorem claim_C2_eviction_ceiling (estimateSize : CacheValue V → Nat) :
    (∀ ops : List (String × V × Int × Int),
      totalSize estimateSize (runSets estimateSize ops (initMem V)).store ≤ MAX_CACHE_SIZE ∨
        ∃ k e, (runSets estimateSize ops (initMem V)).store = [(k, e)] ∧
          MAX_CACHE_SIZE < estimateSize e)
    ∧ (∀ (s : MemState V) (k : String) (v : V) (ttl now : Int),
      lookupA (memSet estimateSize s k v ttl now).store k = some (mkEntry v ttl now)) := by
  constructor
  · intro ops
    have hinit1 : sizeInvariant estimateSize (initMem V) := by
      unfold sizeInvariant initMem NodupKeys keysA totalSize
      simp
    have hinit2 : withinCeiling estimateSize (initMem V) := by
      unfold withinCeiling initMem totalSize
      simp
    exact (runSets_spec estimateSize ops (initMem V) hinit1 hinit2).2
  · intro s k v ttl now
    exact lookupA_insertA_self _ _ _

end ClaimC2

section ClaimC3

variable {V : Type}

/-- Claim C3: whenever admitting a new entry forces eviction, entries are
evicted in ascending order of expiry.  First conjunct (general): any entry
evicted by `enforceSizeLimit` expires no later than any entry that
survives.  Second conjunct (the claim's two-entry scenario): with exactly
the entries `A` (expires strictly sooner) and `B` resident, a `set` of a
fresh key that forces exactly one eviction (the resulting store has two
entries) always evicts `A` and keeps `B`. -/
theorem claim_C3_eviction_order (estimateSize : CacheValue V → Nat) :
    (∀ (s : MemState V) (n : Nat), NodupKeys s.store →
      ∀ (k1 k2 : String) (e1 e2 : CacheValue V),
        (k1, e1) ∈ s.store →
        lookupA (enforceSizeLimit estimateSize s n).store k1 = none →
        (k2, e2) ∈ (enforceSizeLimit estimateSize s n).store →
        Expiry.Le e1.expiry e2.expiry)
    ∧ (∀ (s : MemState V) (kA kB k : String) (eA eB : CacheValue V) (v : V) (ttl now : Int),
        s.store = [(kA, eA), (kB, eB)] → kA ≠ kB → k ≠ kA → k ≠ kB →
        Expiry.Lt eA.expiry eB.expiry →
        (memSet estimateSize s k v ttl now).store.length = 2 →
        (memSet estimateSize s k v ttl now).store =
          [(kB, eB), (k, mkEntry v ttl now)]) := by
  constructor
  · intro s n hnd k1 k2 e1 e2 hmem1 hgone hkeep
    unfold enforceSizeLimit at hgone hkeep
    by_cases hcond : (MAX_CACHE_SIZE : Int) < s.size + n
    · rw [if_pos hcond] at hgone hkeep
      have hsorted : List.Sorted expiryOrder (List.insertionSort expiryOrder s.store) :=
        List.sorted_insertionSort expiryOrder s.store
      obtain ⟨front, rest, hsplit, hpr⟩ :=
        evictLoop_split estimateSize n (List.insertionSort expiryOrder s.store) s
          (List.perm_insertionSort expiryOrder s.store).symm hnd
      have hmem1' : (k1, e1) ∈ List.insertionSort expiryOrder s.store :=
        (List.perm_insertionSort expiryOrder s.store).symm.subset hmem1
      rw [hsplit] at hmem1' hsorted
      have hfront : (k1, e1) ∈ front := by
        rcases List.mem_append.1 hmem1' with h | h
        · exact h
        · exfalso
          have : (k1, e1) ∈ (evictLoop estimateSize n
              (List.insertionSort expiryOrder s.store) s).store := hpr.symm.subset h
          exact (lookupA_eq_none_iff.1 hgone) (List.mem_map_of_mem Prod.fst this)
      have hrest : (k2, e2) ∈ rest := hpr.subset hkeep
      exact (List.pairwise_append.1 hsorted).2.2 (k1, e1) hfront (k2, e2) hrest
    · rw [if_neg hcond] at hgone
      exact absurd (lookupA_eq_none_iff.1 hgone)
        (by intro hk; exact hk (List.mem_map_of_mem Prod.fst hmem1))
  · intro s kA kB k eA eB v ttl now hstore hAB hkA hkB hlt hlen
    have hle : expiryOrder (kA, eA) (kB, eB) := Expiry.le_of_lt hlt
    have hsort : List.insertionSort expiryOrder s.store = [(kA, eA), (kB, eB)] := by
      rw [hstore]
      simp only [List.insertionSort, List.orderedInsert_nil]
      unfold List.orderedInsert
      rw [if_pos hle]
    have hrm1 : removeA s.store kA = [(kB, eB)] := by
      rw [hstore, removeA_cons_of_eq _ rfl,
        removeA_cons_of_ne _ (by simpa using Ne.symm hAB)]
      rfl
    have hmemSet : (memSet estimateSize s k v ttl now).store =
        insertA (enforceSizeLimit estimateSize s
          (estimateSize (mkEntry v ttl now))).store k (mkEntry v ttl now) := rfl
    set item := mkEntry (V := V) v ttl now with hitem
    set isz := estimateSize item with hisz
    rw [hmemSet] at hlen ⊢
    unfold enforceSizeLimit at hlen ⊢
    by_cases h1 : (MAX_CACHE_SIZE : Int) < s.size + isz
    · rw [if_pos h1, hsort] at hlen ⊢
      have hstep1 : evictLoop estimateSize isz [(kA, eA), (kB, eB)] s =
          evictLoop estimateSize isz [(kB, eB)]
            ⟨removeA s.store kA, s.size - estimateSize eA⟩ := by
        conv_lhs => rw [evictLoop]
        rw [if_pos h1]
      rw [hstep1, hrm1] at hlen ⊢
      by_cases h2 : (MAX_CACHE_SIZE : Int) < (s.size - estimateSize eA) + isz
      · have hstep2 : evictLoop estimateSize isz [(kB, eB)]
            (⟨[(kB, eB)], s.size - estimateSize eA⟩ : MemState V) =
            ⟨removeA [(kB, eB)] kB, s.size - estimateSize eA - estimateSize eB⟩ := by
          conv_lhs => rw [evictLoop]
          rw [if_pos h2]
          rfl
        rw [hstep2] at hlen
        have hrm2 : removeA [(kB, eB)] kB = ([] : List (String × CacheValue V)) :=
          removeA_cons_of_eq _ rfl
        rw [hrm2] at hlen
        unfold insertA keysA at hlen
        simp at hlen
      · have hstep2 : evictLoop estimateSize isz [(kB, eB)]
            (⟨[(kB, eB)], s.size - estimateSize eA⟩ : MemState V) =
            ⟨[(kB, eB)], s.size - estimateSize eA⟩ := by
          conv_lhs => rw [evictLoop]
          rw [if_neg h2]
        rw [hstep2]
        have hnotmem : k ∉ keysA [(kB, eB)] := by
          unfold keysA
          simpa using hkB
        unfold insertA
        rw [if_neg hnotmem]
        rfl
    · rw [if_neg h1, hstore] at hlen
      have hnotmem : k ∉ keysA [(kA, eA), (kB, eB)] := by
        unfold keysA
        simpa using ⟨hkA, hkB⟩
      unfold insertA at hlen
      rw [if_neg hnotmem] at hlen
      simp at hlen

/-- Witness for C3: a 21 MiB entry `a` expiring at 10 and a 5 MiB entry `b`
expiring at 20 are resident; inserting a fresh 5 MiB entry `c` forces
exactly one eviction, and it is `a` — the entry with the soonest expiry —
that is evicted, never `b`. -/
theorem claim_C3_eviction_order_witness :
    (memSet (fun e : CacheValue Nat => e.value)
      (⟨[("a", ⟨22020096, Expiry.fin 10⟩), ("b", ⟨5242880, Expiry.fin 20⟩)],
        27262976⟩ : MemState Nat) "c" 5242880 10 0).store =
      [("b", ⟨5242880, Expiry.fin 20⟩), ("c", mkEntry 5242880 10 0)] :=
  (claim_C3_eviction_order (fun e : CacheValue Nat => e.value)).2
    ⟨[("a", ⟨22020096, Expiry.fin 10⟩), ("b", ⟨5242880, Expiry.fin 20⟩)], 27262976⟩
    "a" "b" "c" ⟨22020096, Expiry.fin 10⟩ ⟨5242880, Expiry.fin 20⟩ 5242880 10 0
    rfl (by decide) (by decide) (by decide) (by decide) (by decide)

end ClaimC3

section ClaimC6

/-- Claim C6 is violated by the code: `set` on an already-present key
overwrites the entry (line 81) and adds the new entry's size (line 82) but
never subtracts the overwritten entry's size, so the counter drifts above
the aggregate resident size.  This theorem evaluates the code at the
failing input — two consecutive `set("k", …)` calls against the fresh
memory tier with remote unavailable, entry sizes 100 then 101: the counter
ends at 201 while the aggregate estimated size of the resident entries is
101. -/
theorem claim_C6_size_accounting_bug :
    (memSet (fun e : CacheValue Nat => e.value)
      (memSet (fun e : CacheValue Nat => e.value) (initMem Nat) "k" 100 10 0)
      "k" 101 10 0).size = 201
    ∧ totalSize (fun e : CacheValue Nat => e.value)
        (memSet (fun e : CacheValue Nat => e.value)
          (memSet (fun e : CacheValue Nat => e.value) (initMem Nat) "k" 100 10 0)
          "k" 101 10 0).store = 101
    ∧ (memSet (fun e : CacheValue Nat => e.value)
        (memSet (fun e : CacheValue Nat => e.value) (initMem Nat) "k" 100 10 0)
        "k" 101 10 0).size ≠
      (totalSize (fun e : CacheValue Nat => e.value)
        (memSet (fun e : CacheValue Nat => e.value)
          (memSet (fun e : CacheValue Nat => e.value) (initMem Nat) "k" 100 10 0)
          "k" 101 10 0).store : Int) := by
  refine ⟨by decide, by decide, by decide⟩

end ClaimC6

/-! ## The public layered operations of `cacheService.ts` -/

/-- Outcome of the `setRedisCache` attempt inside `set`: the write
succeeded (`stored`, the call returned `true`), Redis was unavailable or
declined the write (`declined`, returned `false`), or the call threw
(`thrown`, swallowed by the inner `catch`). -/
inductive RSetOutcome where
  | stored
  | declined
  | thrown
deriving DecidableEq, Repr

/-- Outcome of the `getRedisCache` attempt inside `get`: a remote hit with
a value, a remote miss (`null`), or a thrown error (swallowed by the inner
`catch`). -/
inductive RGetOutcome (V : Type) where
  | found (v : V)
  | missing
  | thrown
deriving DecidableEq, Repr

section PublicOps

variable {V : Type} (estimateSize : CacheValue V → Nat)

/-- Layered `set` (lines 56–88): try Redis first; on a successful remote write
return immediately, leaving the memory tier untouched; otherwise fall back
to the memory tier.  `serOk = false` models `JSON.stringify` throwing on
the incoming value inside `estimateSize` (line 78): the throw happens
before any mutation and the outer `catch` swallows it, so `set` completes
as a no-op. -/
def setPublic (ro : RSetOutcome) (serOk : Bool) (s : MemState V) (k : String)
    (v : V) (ttl now : Int) : MemState V :=
  match ro with
  | .stored => s
  | _ => if serOk then memSet estimateSize s k v ttl now else s

/-- Layered `get` (lines 93–136): a remote hit is returned directly; a remote miss
or a thrown remote error falls through to the memory tier. -/
def getPublic (rg : RGetOutcome V) (s : MemState V) (k : String) (now : Int) :
    Option V × MemState V :=
  match rg with
  | .found v => (some v, s)
  | _ => memGet estimateSize s k now

/-- Layered `del` (lines 141–164): the remote delete is attempted first (its
outcome, including a thrown error, does not affect the local tier), then
the memory tier entry is always removed with its size deducted. -/
def delPublic (_ro : RSetOutcome) (s : MemState V) (k : String) : MemState V :=
  memDel estimateSize s k

/-- Layered `clear` (lines 169–191): the remote flush is attempted (outcome
irrelevant), then the memory cache is emptied and the counter reset. -/
def clearPublic (_ro : RSetOutcome) (s : MemState V) : MemState V :=
  memClear s

end PublicOps

section ClaimC4

variable {V : Type}

/-- Claim C4: no public cache operation surfaces an internal failure.  For
every remote outcome (including a thrown remote call) and every
serialization outcome, `set` completes normally — either as a no-op or as
the memory-tier fallback; a failed serialization makes `set` a no-op; `get`
degrades a remote miss or thrown remote call to the memory tier, and when
the key is absent there it returns `null` (a cache miss) with the state
unchanged; `del` and `clear` always complete with the local effect
regardless of the remote outcome. -/
theorem claim_C4_no_error_surfaced (estimateSize : CacheValue V → Nat) :
    (∀ (ro : RSetOutcome) (serOk : Bool) (s : MemState V) (k : String) (v : V) (ttl now : Int),
      setPublic estimateSize ro serOk s k v ttl now = s ∨
        setPublic estimateSize ro serOk s k v ttl now = memSet estimateSize s k v ttl now)
    ∧ (∀ (ro : RSetOutcome) (s : MemState V) (k : String) (v : V) (ttl now : Int),
      setPublic estimateSize ro false s k v ttl now = s)
    ∧ (∀ (rg : RGetOutcome V) (s : MemState V) (k : String) (now : Int),
      rg = .missing ∨ rg = .thrown →
        getPublic estimateSize rg s k now = memGet estimateSize s k now)
    ∧ (∀ (v : V) (s : MemState V) (k : String) (now : Int),
      getPublic estimateSize (.found v) s k now = (some v, s))
    ∧ (∀ (s : MemState V) (k : String) (now : Int), lookupA s.store k = none →
      (getPublic estimateSize .thrown s k now).1 = none ∧
        (getPublic estimateSize .thrown s k now).2 = s)
    ∧ (∀ (ro : RSetOutcome) (s : MemState V) (k : String),
      delPublic estimateSize ro s k = memDel estimateSize s k)
    ∧ (∀ (ro : RSetOutcome) (s : MemState V),
      clearPublic ro s = (⟨[], 0⟩ : MemState V)) := by
  refine ⟨?_, ?_, ?_, ?_, ?_, ?_, ?_⟩
  · intro ro serOk s k v ttl now
    cases ro <;> cases serOk <;> simp [setPublic]
  · intro ro s k v ttl now
    cases ro <;> rfl
  · intro rg s k now h
    rcases h with h | h <;> subst h <;> rfl
  · intro v s k now
    rfl
  · intro s k now h
    have : getPublic estimateSize (RGetOutcome.thrown (V := V)) s k now =
        memGet estimateSize s k now := rfl
    rw [this, memGet_of_none estimateSize h]
    exact ⟨rfl, rfl⟩
  · intro ro s k
    rfl
  · intro ro s
    rfl

/-- Witness for C4: the amended conjuncts applied at concrete inputs — a
thrown remote `get` against the empty store degrades to a miss: it returns
`null` and leaves the state unchanged. -/
theorem claim_C4_no_error_surfaced_witness :
    (getPublic (fun e : CacheValue Nat => e.value) RGetOutcome.thrown
        (initMem Nat) "k" 0).1 = none
    ∧ (getPublic (fun e : CacheValue Nat => e.value) RGetOutcome.thrown
        (initMem Nat) "k" 0).2 = initMem Nat :=
  (claim_C4_no_error_surfaced (fun e : CacheValue Nat => e.value)).2.2.2.2.1
    (initMem Nat) "k" 0 rfl

end ClaimC4

section ClaimC10

variable {V : Type}

/-- Claim C10: when the remote write succeeds, `set` returns immediately
(line 69) and the local in-memory tier is left completely unchanged — no
entry is written or evicted and the size counter keeps its prior value,
regardless of the serialization outcome, the key, the value, the ttl or
the timestamp. -/
theorem claim_C10_remote_success_frame (estimateSize : CacheValue V → Nat) :
    ∀ (serOk : Bool) (s : MemState V) (k : String) (v : V) (ttl now : Int),
      setPublic estimateSize .stored serOk s k v ttl now = s := by
  intro serOk s k v ttl now
  rfl

end ClaimC10

/-! ## The simplified local-only cache service

The in-memory-only revision: same `{ value, expiry }` entries and the same
lazy expiry check, but no size accounting and no eviction. -/

section SimpleCache

variable {V : Type}

/-- Simplified `set`: store the entry, nothing else. -/
def simpleSet (st : List (String × CacheValue V)) (k : String) (v : V)
    (ttl now : Int) : List (String × CacheValue V) :=
  insertA st k (mkEntry v ttl now)

/-- Simplified `get`: identical miss/expiry logic; an
expired entry is deleted (there is no size counter to adjust). -/
def simpleGet (st : List (String × CacheValue V)) (k : String) (now : Int) :
    Option V × List (String × CacheValue V) :=
  match lookupA st k with
  | none => (none, st)
  | some cached =>
    if cached.expiry.isExpired now then (none, removeA st k)
    else (some cached.value, st)

/-- Simplified `del`: unconditional delete. -/
def simpleDel (st : List (String × CacheValue V)) (k : String) :
    List (String × CacheValue V) :=
  removeA st k

theorem simpleGet_of_none {st : List (String × CacheValue V)} {k : String}
    {now : Int} (h : lookupA st k = none) : simpleGet st k now = (none, st) := by
  unfold simpleGet
  rw [h]

theorem simpleGet_of_expired {st : List (String × CacheValue V)} {k : String}
    {now : Int} {c : CacheValue V} (h : lookupA st k = some c)
    (hx : c.expiry.isExpired now = true) :
    simpleGet st k now = (none, removeA st k) := by
  unfold simpleGet
  rw [h]
  simp [hx]

theorem simpleGet_of_live {st : List (String × CacheValue V)} {k : String}
    {now : Int} {c : CacheValue V} (h : lookupA st k = some c)
    (hx : c.expiry.isExpired now = false) :
    simpleGet st k now = (some c.value, st) := by
  unfold simpleGet
  rw [h]
  simp [hx]

end SimpleCache

section ClaimC7

variable {V : Type}

/-- One timed call against a cache service. -/
inductive CacheOp (V : Type) where
  | setOp (k : String) (v : V) (ttl : Int)
  | getOp (k : String)
  | delOp (k : String)

/-- State transition of the layered cache when the remote tier always
fails: `set` falls back to the memory tier, `get` misses remotely and
falls back, `del` always cleans the memory tier. -/
def stepLayered (estimateSize : CacheValue V → Nat) (s : MemState V) :
    Int × CacheOp V → MemState V
  | (now, .setOp k v ttl) => setPublic estimateSize .declined true s k v ttl now
  | (now, .getOp k) => (getPublic estimateSize .missing s k now).2
  | (_, .delOp k) => delPublic estimateSize .declined s k

/-- Caller-observable outputs (the `get` results, in order) of a call
sequence against the layered cache with an always-failing remote tier. -/
def runLayered (estimateSize : CacheValue V → Nat) :
    List (Int × CacheOp V) → MemState V → List (Option V)
  | [], _ => []
  | (now, .setOp k v ttl) :: ops, s =>
    runLayered estimateSize ops (stepLayered estimateSize s (now, .setOp k v ttl))
  | (now, .getOp k) :: ops, s =>
    (getPublic estimateSize .missing s k now).1 ::
      runLayered estimateSize ops (stepLayered estimateSize s (now, .getOp k))
  | (now, .delOp k) :: ops, s =>
    runLayered estimateSize ops (stepLayered estimateSize s (now, .delOp k))

/-- State transition of the simplified local-only service. -/
def stepSimple (st : List (String × CacheValue V)) :
    Int × CacheOp V → List (String × CacheValue V)
  | (now, .setOp k v ttl) => simpleSet st k v ttl now
  | (now, .getOp k) => (simpleGet st k now).2
  | (_, .delOp k) => simpleDel st k

/-- Caller-observable outputs of the same call sequence against the
simplified local-only service. -/
def runSimple : List (Int × CacheOp V) → List (String × CacheValue V) → List (Option V)
  | [], _ => []
  | (now, .setOp k v ttl) :: ops, st =>
    runSimple ops (stepSimple st (now, .setOp k v ttl))
  | (now, .getOp k) :: ops, st =>
    (simpleGet st k now).1 :: runSimple ops (stepSimple st (now, .getOp k))
  | (now, .delOp k) :: ops, st =>
    runSimple ops (stepSimple st (now, .delOp k))

/-- The run never triggers the size ceiling: before every `set` of the
layered run, the counter plus the incoming entry's estimated size stays
within `MAX_CACHE_SIZE`. -/
def evictionFree (estimateSize : CacheValue V → Nat) :
    List (Int × CacheOp V) → MemState V → Bool
  | [], _ => true
  | (now, .setOp k v ttl) :: ops, s =>
    decide (s.size + (estimateSize (mkEntry v ttl now) : Int) ≤ MAX_CACHE_SIZE)
      && evictionFree estimateSize ops (stepLayered estimateSize s (now, .setOp k v ttl))
  | (now, .getOp k) :: ops, s =>
    evictionFree estimateSize ops (stepLayered estimateSize s (now, .getOp k))
  | (now, .delOp k) :: ops, s =>
    evictionFree estimateSize ops (stepLayered estimateSize s (now, .delOp k))

theorem enforceSizeLimit_no_trigger (estimateSize : CacheValue V → Nat)
    {s : MemState V} {n : Nat}
    (h : ¬ (MAX_CACHE_SIZE : Int) < s.size + n) :
    enforceSizeLimit estimateSize s n = s := by
  unfold enforceSizeLimit
  rw [if_neg h]

theorem memSet_no_evict (estimateSize : CacheValue V → Nat) {s : MemState V}
    {k : String} {v : V} {ttl now : Int}
    (h : s.size + (estimateSize (mkEntry v ttl now) : Int) ≤ MAX_CACHE_SIZE) :
    memSet estimateSize s k v ttl now =
      ⟨insertA s.store k (mkEntry v ttl now),
        s.size + estimateSize (mkEntry v ttl now)⟩ := by
  unfold memSet
  rw [enforceSizeLimit_no_trigger estimateSize (by omega)]

theorem memGet_matches_simpleGet (estimateSize : CacheValue V → Nat)
    (s : MemState V) (st : List (String × CacheValue V)) (hst : s.store = st)
    (k : String) (now : Int) :
    (memGet estimateSize s k now).1 = (simpleGet st k now).1 ∧
      (memGet estimateSize s k now).2.store = (simpleGet st k now).2 := by
  subst hst
  cases hc : lookupA s.store k with
  | none =>
    rw [memGet_of_none estimateSize hc, simpleGet_of_none hc]
    exact ⟨rfl, rfl⟩
  | some cached =>
    cases hx : cached.expiry.isExpired now with
    | true =>
      rw [memGet_of_expired estimateSize hc hx, simpleGet_of_expired hc hx]
      exact ⟨rfl, rfl⟩
    | false =>
      rw [memGet_of_live estimateSize hc hx, simpleGet_of_live hc hx]
      exact ⟨rfl, rfl⟩

theorem memDel_store (estimateSize : CacheValue V → Nat) (s : MemState V)
    (k : String) : (memDel estimateSize s k).store = removeA s.store k := by
  cases hc : lookupA s.store k with
  | none =>
    have h1 : memDel estimateSize s k = s := by
      unfold memDel
      rw [hc]
    rw [h1, removeA_eq_self_of_not_mem s.store (lookupA_eq_none_iff.1 hc)]
  | some cached =>
    have h1 : memDel estimateSize s k =
        ⟨removeA s.store k, s.size - estimateSize cached⟩ := by
      unfold memDel
      rw [hc]
    rw [h1]

/-- Claim C7 (amended): with the remote tier always failing, the layered
`set`/`get`/`del` produce exactly the outputs of the simplified local-only
service **provided no `set` of the run triggers the size ceiling**
(`evictionFree`); the layered service may otherwise evict resident entries
to honour the 30 MiB ceiling, which the local-only service never does. -/
theorem claim_C7_fallback_transparency (estimateSize : CacheValue V → Nat) :
    ∀ (ops : List (Int × CacheOp V)) (s : MemState V)
      (st : List (String × CacheValue V)),
      s.store = st → evictionFree estimateSize ops s = true →
      runLayered estimateSize ops s = runSimple ops st := by
  intro ops
  induction ops with
  | nil => intro s st _ _; rfl
  | cons op ops ih =>
    intro s st hst hfree
    obtain ⟨now, op⟩ := op
    cases op with
    | setOp k v ttl =>
      rw [evictionFree, Bool.and_eq_true] at hfree
      obtain ⟨hhead, hrest⟩ := hfree
      have hcond : s.size + (estimateSize (mkEntry v ttl now) : Int) ≤ MAX_CACHE_SIZE :=
        of_decide_eq_true hhead
      have hstep : stepLayered estimateSize s (now, CacheOp.setOp k v ttl) =
          memSet estimateSize s k v ttl now := rfl
      have hstore' : (memSet estimateSize s k v ttl now).store =
          simpleSet st k v ttl now := by
        rw [memSet_no_evict estimateSize hcond]
        unfold simpleSet
        rw [hst]
      rw [runLayered, runSimple]
      have hstep2 : stepSimple st (now, CacheOp.setOp k v ttl) =
          simpleSet st k v ttl now := rfl
      rw [hstep2]
      exact ih _ _ (by rw [hstep, hstore']) hrest
    | getOp k =>
      rw [evictionFree] at hfree
      have hmg := memGet_matches_simpleGet estimateSize s st hst k now
      rw [runLayered, runSimple]
      have h1 : (getPublic estimateSize (RGetOutcome.missing (V := V)) s k now).1 =
          (simpleGet st k now).1 := hmg.1
      have h2 : (stepLayered estimateSize s (now, CacheOp.getOp k)).store =
          stepSimple st (now, CacheOp.getOp k) := hmg.2
      rw [h1]
      exact congrArg _ (ih _ _ h2 hfree)
    | delOp k =>
      rw [evictionFree] at hfree
      rw [runLayered, runSimple]
      have h2 : (stepLayered estimateSize s (now, CacheOp.delOp k)).store =
          stepSimple st (now, CacheOp.delOp k) := by
        have h3 : stepLayered estimateSize s (now, CacheOp.delOp k) =
            memDel estimateSize s k := rfl
        rw [h3, memDel_store, hst]
        rfl
      exact ih _ _ h2 hfree

/-- Counterexample to claim C7 as stated: two 20 MiB entries overflow the
30 MiB ceiling, so the layered cache (remote always failing) evicts key
`a` while admitting `b`; the subsequent `get("a")` misses on the layered
cache but hits on the local-only service, so the observable outputs
differ. -/
theorem claim_C7_counterexample :
    runLayered (fun e : CacheValue Nat => e.value)
      [(0, CacheOp.setOp "a" 20971520 10), (1, CacheOp.setOp "b" 20971520 10),
        (2, CacheOp.getOp "a")] (initMem Nat) ≠
    runSimple
      [(0, CacheOp.setOp "a" 20971520 10), (1, CacheOp.setOp "b" 20971520 10),
        (2, CacheOp.getOp "a")] ([] : List (String × CacheValue Nat)) := by
  decide

/-- Witness for C7: a small eviction-free run — set, hit, delete, miss —
produces identical outputs on both configurations. -/
theorem claim_C7_fallback_transparency_witness :
    evictionFree (fun e : CacheValue Nat => e.value)
      [(0, CacheOp.setOp "a" 5 10), (1, CacheOp.getOp "a"),
        (2, CacheOp.delOp "a"), (3, CacheOp.getOp "a")] (initMem Nat) = true
    ∧ runLayered (fun e : CacheValue Nat => e.value)
        [(0, CacheOp.setOp "a" 5 10), (1, CacheOp.getOp "a"),
          (2, CacheOp.delOp "a"), (3, CacheOp.getOp "a")] (initMem Nat) =
      runSimple
        [(0, CacheOp.setOp "a" 5 10), (1, CacheOp.getOp "a"),
          (2, CacheOp.delOp "a"), (3, CacheOp.getOp "a")]
        ([] : List (String × CacheValue Nat)) :=
  ⟨by decide,
    claim_C7_fallback_transparency (fun e : CacheValue Nat => e.value)
      [(0, CacheOp.setOp "a" 5 10), (1, CacheOp.getOp "a"),
        (2, CacheOp.delOp "a"), (3, CacheOp.getOp "a")]
      (initMem Nat) [] rfl (by decide)⟩

end ClaimC7

/-! ## The Redis adapter of `redisCache.server.ts`

Module state: `redisClient` (nullable client instance, modelled by the
`hasClient` flag — the client object itself carries no modelled state),
`isRedisConnecting`, and `redisConnectionFailed`.  The asynchronous
`error`/`connect` event callbacks registered on the client are modelled as
separate transition functions.  The payload pipeline of `getRedisCache`
(JSON parse, envelope expiry check, lazy delete) is collapsed into a `hit`
flag: claim C5 concerns only the availability flags and whether the remote
tier is attempted at all. -/

/-- Whether the initial `ping` of a fresh connection attempt succeeds. -/
inductive PingOutcome where
  | ok
  | fail
deriving DecidableEq, Repr

/-- Whether the Redis command issued by an operation succeeds or throws. -/
inductive OpOutcome where
  | ok
  | err
deriving DecidableEq, Repr

/-- The module-level flags of `redisCache.server.ts`. -/
structure RedisState where
  hasClient : Bool
  isRedisConnecting : Bool
  redisConnectionFailed : Bool
deriving DecidableEq, Repr

/-- Function `getRedisClient` (lines 22–87): an existing client is returned at once
— **before** the `redisConnectionFailed` check; a failed flag (with no
client) short-circuits to `null`; a concurrent connection attempt waits
and returns the (still null) client; otherwise a fresh connection is
attempted, whose ping outcome either yields a client or sets
`redisConnectionFailed` and discards the client. -/
def getRedisClient (po : PingOutcome) (s : RedisState) : Bool × RedisState :=
  if s.hasClient then (true, s)
  else if s.redisConnectionFailed then (false, s)
  else if s.isRedisConnecting then (false, s)
  else
    match po with
    | .ok => (true, ⟨true, false, s.redisConnectionFailed⟩)
    | .fail => (false, ⟨false, false, true⟩)

/-- Function `setRedisCache` (lines 92–112): obtain the client (or bail out), issue
the write; a thrown command error is caught, logged and reported as
`false` — the availability flags are not touched.  Returns
`(result, attempted, state)`. -/
def setRedisCache (po : PingOutcome) (oo : OpOutcome) (s : RedisState) :
    Bool × Bool × RedisState :=
  if (getRedisClient po s).1 then
    match oo with
    | .ok => (true, true, (getRedisClient po s).2)
    | .err => (false, true, (getRedisClient po s).2)
  else (false, false, (getRedisClient po s).2)

/-- Function `getRedisCache` (lines 117–144): same shape; a thrown command error is
caught and degraded to `null` without touching the flags. -/
def getRedisCache (po : PingOutcome) (oo : OpOutcome) (hit : Bool) (s : RedisState) :
    Option Unit × Bool × RedisState :=
  if (getRedisClient po s).1 then
    match oo with
    | .ok => (if hit then some () else none, true, (getRedisClient po s).2)
    | .err => (none, true, (getRedisClient po s).2)
  else (none, false, (getRedisClient po s).2)

/-- Function `deleteRedisCache` (lines 149–161). -/
def deleteRedisCache (po : PingOutcome) (oo : OpOutcome) (s : RedisState) :
    Bool × Bool × RedisState :=
  if (getRedisClient po s).1 then
    match oo with
    | .ok => (true, true, (getRedisClient po s).2)
    | .err => (false, true, (getRedisClient po s).2)
  else (false, false, (getRedisClient po s).2)

/-- Function `clearRedisCache` (lines 166–178). -/
def clearRedisCache (po : PingOutcome) (oo : OpOutcome) (s : RedisState) :
    Bool × Bool × RedisState :=
  if (getRedisClient po s).1 then
    match oo with
    | .ok => (true, true, (getRedisClient po s).2)
    | .err => (false, true, (getRedisClient po s).2)
  else (false, false, (getRedisClient po s).2)

/-- The `error` event callback (lines 52–58): flips
`redisConnectionFailed` when a client exists and the flag is not yet
set. -/
def redisOnError (s : RedisState) : RedisState :=
  if s.hasClient && !s.redisConnectionFailed then
    ⟨s.hasClient, s.isRedisConnecting, true⟩
  else s

/-- The `connect` event callback (lines 60–63): resets
`redisConnectionFailed`. -/
def redisOnConnect (s : RedisState) : RedisState :=
  ⟨s.hasClient, s.isRedisConnecting, false⟩

section ClaimC5

/-- Counterexample to claim C5 as stated.  First conjunct: from the
available state (client present, flag clear), a remote operation that
throws leaves `redisConnectionFailed = false` — the operation's `catch`
only logs and returns, so the claimed available→failed transition does not
happen within the call.  Second conjunct: in a failed state in which the
client instance still exists (the `error` event fired after the client was
created), `getRedisClient` returns the client before ever consulting the
flag, so the operation **does** attempt the remote tier, contradicting
"once failed, every subsequent operation skips the remote tier
entirely". -/
theorem claim_C5_counterexample :
    (setRedisCache .ok .err ⟨true, false, false⟩).2.2.redisConnectionFailed = false
    ∧ (setRedisCache .ok .ok ⟨true, false, true⟩).2.1 = true := by
  decide

/-- Claim C5 (amended): a remote operation error is caught and reported
(set returns `false`, get returns `null`) **without changing the adapter
state** — the availability flag only transitions to failed through the
connection-error event callback or a failed initial ping (which also
discards the client).  When the flag is failed **and no client instance
exists**, every operation skips the remote tier without an attempt and
leaves the state unchanged; the `connect` event resets the flag to
available. -/
theorem claim_C5_availability_machine :
    (∀ (po : PingOutcome) (oo : OpOutcome) (hit : Bool) (s : RedisState),
      s.hasClient = true →
      (setRedisCache po oo s).2.2 = s ∧ (getRedisCache po oo hit s).2.2 = s ∧
      (deleteRedisCache po oo s).2.2 = s ∧ (clearRedisCache po oo s).2.2 = s)
    ∧ (∀ (po : PingOutcome) (oo : OpOutcome) (hit : Bool) (s : RedisState),
      s.redisConnectionFailed = true → s.hasClient = false →
      setRedisCache po oo s = (false, false, s) ∧
      getRedisCache po oo hit s = (none, false, s) ∧
      deleteRedisCache po oo s = (false, false, s) ∧
      clearRedisCache po oo s = (false, false, s))
    ∧ (∀ s : RedisState, (redisOnConnect s).redisConnectionFailed = false)
    ∧ (∀ s : RedisState, s.hasClient = true → s.redisConnectionFailed = false →
      (redisOnError s).redisConnectionFailed = true)
    ∧ (∀ s : RedisState, s.hasClient = false → s.isRedisConnecting = false →
      s.redisConnectionFailed = false →
      getRedisClient .fail s = (false, ⟨false, false, true⟩)) := by
  refine ⟨?_, ?_, ?_, ?_, ?_⟩
  · intro po oo hit s h
    have hcl : getRedisClient po s = (true, s) := by
      unfold getRedisClient
      rw [if_pos h]
    refine ⟨?_, ?_, ?_, ?_⟩
    · unfold setRedisCache
      rw [hcl]
      cases oo <;> rfl
    · unfold getRedisCache
      rw [hcl]
      cases oo <;> rfl
    · unfold deleteRedisCache
      rw [hcl]
      cases oo <;> rfl
    · unfold clearRedisCache
      rw [hcl]
      cases oo <;> rfl
  · intro po oo hit s hf hc
    have hcl : getRedisClient po s = (false, s) := by
      unfold getRedisClient
      rw [if_neg (by simp [hc]), if_pos hf]
    refine ⟨?_, ?_, ?_, ?_⟩
    · unfold setRedisCache
      rw [hcl]
      rfl
    · unfold getRedisCache
      rw [hcl]
      rfl
    · unfold deleteRedisCache
      rw [hcl]
      rfl
    · unfold clearRedisCache
      rw [hcl]
      rfl
  · intro s
    rfl
  · intro s hc hf
    unfold redisOnError
    rw [if_pos (by simp [hc, hf])]
  · intro s hc hi hf
    unfold getRedisClient
    rw [if_neg (by simp [hc]), if_neg (by simp [hf]), if_neg (by simp [hi])]

/-- Witness for C5: the amended theorem applied at concrete states — a
thrown write from the available-with-client state leaves the state intact,
and from the failed-without-client state the write is skipped without an
attempt. -/
theorem claim_C5_availability_machine_witness :
    (setRedisCache .ok .err ⟨true, false, false⟩).2.2 = (⟨true, false, false⟩ : RedisState)
    ∧ setRedisCache .ok .ok ⟨false, false, true⟩ =
      (false, false, (⟨false, false, true⟩ : RedisState)) :=
  ⟨(claim_C5_availability_machine.1 .ok .err true ⟨true, false, false⟩ rfl).1,
    (claim_C5_availability_machine.2.1 .ok .ok true ⟨false, false, true⟩ rfl rfl).1⟩

end ClaimC5

/-! ## The class-based `CacheService`: snapshot and restore

The second revision in `cacheService.ts`: values are stored in Redis as
`JSON.stringify(value)` strings; `get` parses them back; `createSnapshot`
enumerates `redis.keys('*')` and reads every key inside one `try`;
`saveSnapshotToLocal` serializes the snapshot map to the latest-snapshot
file; `loadSnapshotFromLocal` replays every pair through `set`.

The JSON codec is kept abstract: `stringify`/`parse` are an inverse pair
(`parse (stringify v) = some v`, the round-trip law of
`JSON.parse ∘ JSON.stringify`), `parse s = none` models `JSON.parse(s)`
throwing, and `ofString s` is the JS string `s` viewed as a JSON value
(the `catch` branch of `createSnapshot` stores the raw string).  The JSON
round trip of the snapshot **file** itself is modelled as the identity
(the file holds the snapshot map), since both sides of claim C8 pass
through it unchanged.  The remote tier is a string-valued store; per-key
read faults are injected by a `fault` predicate modelling a thrown
`redis.get`. -/

section Snapshot

variable {J : Type}

/-- A Redis string value that fails `JSON.parse`, handled by the `catch`
in `createSnapshot`: the raw string is kept as the snapshot value. -/
def parseOr (parse : String → Option J) (ofString : String → J) (s : String) : J :=
  match parse s with
  | some v => v
  | none => ofString s

/-- Method `CacheService.set` (lines 322–336): store `JSON.stringify(value)`
(the Redis TTL argument does not affect the stored value). -/
def clsSet (stringify : J → String) (st : List (String × String)) (k : String)
    (v : J) : List (String × String) :=
  insertA st k (stringify v)

/-- Method `CacheService.get` (lines 341–352): a missing or empty string is a
miss (`if (!value) return null`); a string that fails to parse throws,
and the `catch` degrades it to `null`. -/
def clsGet (parse : String → Option J) (st : List (String × String))
    (k : String) : Option J :=
  match lookupA st k with
  | none => none
  | some s => if s = "" then none else parse s

/-- The key loop of `createSnapshot` (lines 384–397): read every key; a
thrown read (`fault`) aborts the whole loop; a missing/empty value is
skipped; a value that parses is stored parsed, otherwise raw. -/
def snapGo (parse : String → Option J) (ofString : String → J)
    (st : List (String × String)) (fault : String → Bool) :
    List String → List (String × J) → Except Unit (List (String × J))
  | [], acc => .ok acc
  | k :: ks, acc =>
    if fault k then .error ()
    else
      match lookupA st k with
      | none => snapGo parse ofString st fault ks acc
      | some s =>
        if s = "" then snapGo parse ofString st fault ks acc
        else
          match parse s with
          | some v => snapGo parse ofString st fault ks (acc ++ [(k, v)])
          | none => snapGo parse ofString st fault ks (acc ++ [(k, ofString s)])

/-- Method `CacheService.createSnapshot` (lines 379–404): enumerate the keyspace
and run the loop; any thrown error is caught and the **empty snapshot**
is returned. -/
def createSnapshot (parse : String → Option J) (ofString : String → J)
    (st : List (String × String)) (fault : String → Bool) : List (String × J) :=
  match snapGo parse ofString st fault (keysA st) [] with
  | .ok snap => snap
  | .error _ => []

/-- Method `CacheService.saveSnapshotToLocal` (lines 409–428): write the snapshot
and point the latest-snapshot file at it. -/
def saveSnapshotToLocal (parse : String → Option J) (ofString : String → J)
    (st : List (String × String)) (fault : String → Bool) :
    Option (List (String × J)) :=
  some (createSnapshot parse ofString st fault)

/-- Method `CacheService.loadSnapshotFromLocal` (lines 468–489): if a latest
snapshot exists, replay every `(key, value)` pair through `set` (with the
default TTL). -/
def loadSnapshotFromLocal (stringify : J → String)
    (file : Option (List (String × J))) (st : List (String × String)) :
    List (String × String) :=
  match file with
  | none => st
  | some snap => snap.foldl (fun acc p => clsSet stringify acc p.1 p.2) st

/-- The fault-free key loop collects exactly the nonempty-valued keys, in
order, parsed (or kept raw). -/
def snapList (parse : String → Option J) (ofString : String → J)
    (st : List (String × String)) (ks : List String) : List (String × J) :=
  ks.filterMap (fun k =>
    match lookupA st k with
    | none => none
    | some s => if s = "" then none else some (k, parseOr parse ofString s))

theorem snapGo_noFault (parse : String → Option J) (ofString : String → J)
    (st : List (String × String)) :
    ∀ (ks : List String) (acc : List (String × J)),
      snapGo parse ofString st (fun _ => false) ks acc =
        .ok (acc ++ snapList parse ofString st ks) := by
  intro ks
  induction ks with
  | nil =>
    intro acc
    simp [snapGo, snapList]
  | cons k ks ih =>
    intro acc
    rw [snapGo, if_neg (by simp)]
    cases hc : lookupA st k with
    | none =>
      dsimp only
      rw [ih acc]
      unfold snapList
      rw [List.filterMap_cons]
      simp [hc]
    | some s =>
      dsimp only
      by_cases hs : s = ""
      · rw [if_pos hs, ih acc]
        unfold snapList
        rw [List.filterMap_cons]
        simp [hc, hs]
      · rw [if_neg hs]
        cases hp : parse s with
        | some v =>
          dsimp only
          rw [ih (acc ++ [(k, v)])]
          unfold snapList
          rw [List.filterMap_cons]
          simp [hc, hs, parseOr, hp]
        | none =>
          dsimp only
          rw [ih (acc ++ [(k, ofString s)])]
          unfold snapList
          rw [List.filterMap_cons]
          simp [hc, hs, parseOr, hp]

theorem createSnapshot_noFault (parse : String → Option J) (ofString : String → J)
    (st : List (String × String)) :
    createSnapshot parse ofString st (fun _ => false) =
      snapList parse ofString st (keysA st) := by
  unfold createSnapshot
  rw [snapGo_noFault]
  simp

theorem snapGo_fault (parse : String → Option J) (ofString : String → J)
    (st : List (String × String)) (fault : String → Bool) :
    ∀ (ks : List String) (acc : List (String × J)),
      (∃ k ∈ ks, fault k = true) →
      snapGo parse ofString st fault ks acc = .error () := by
  intro ks
  induction ks with
  | nil =>
    intro acc h
    simp at h
  | cons k ks ih =>
    intro acc h
    by_cases hk : fault k = true
    · rw [snapGo, if_pos hk]
    · have hrest : ∃ q ∈ ks, fault q = true := by
        obtain ⟨q, hq, hfq⟩ := h
        rcases List.mem_cons.1 hq with rfl | hq'
        · exact absurd hfq hk
        · exact ⟨q, hq', hfq⟩
      rw [snapGo, if_neg hk]
      cases hc : lookupA st k with
      | none => exact ih acc hrest
      | some s =>
        dsimp only
        by_cases hs : s = ""
        · rw [if_pos hs]
          exact ih acc hrest
        · rw [if_neg hs]
          cases hp : parse s with
          | some v =>
            dsimp only
            exact ih _ hrest
          | none =>
            dsimp only
            exact ih _ hrest

theorem keysA_snapList_sublist (parse : String → Option J) (ofString : String → J)
    (st : List (String × String)) :
    ∀ ks : List String, (keysA (snapList parse ofString st ks)).Sublist ks := by
  intro ks
  induction ks with
  | nil => simp [snapList, keysA]
  | cons k ks ih =>
    unfold snapList at ih ⊢
    rw [List.filterMap_cons]
    cases hc : lookupA st k with
    | none =>
      dsimp only
      exact ih.trans (List.sublist_cons_self k ks)
    | some s =>
      dsimp only
      by_cases hs : s = ""
      · rw [if_pos hs]
        exact ih.trans (List.sublist_cons_self k ks)
      · rw [if_neg hs]
        unfold keysA
        rw [List.map_cons]
        exact List.Sublist.cons₂ k ih

theorem lookupA_snapList (parse : String → Option J) (ofString : String → J)
    (st : List (String × String)) {k : String} {s : String}
    (hlk : lookupA st k = some s) (hs : s ≠ "") :
    ∀ ks : List String, k ∈ ks →
      lookupA (snapList parse ofString st ks) k =
        some (parseOr parse ofString s) := by
  intro ks
  induction ks with
  | nil => intro h; simp at h
  | cons q ks ih =>
    intro hmem
    unfold snapList at ih ⊢
    rw [List.filterMap_cons]
    by_cases hqk : q = k
    · subst hqk
      rw [hlk]
      dsimp only
      rw [if_neg hs]
      dsimp only
      simp [lookupA]
    · have hmem' : k ∈ ks := by
        rcases List.mem_cons.1 hmem with h | h
        · exact absurd h.symm hqk
        · exact h
      cases hc : lookupA st q with
      | none =>
        dsimp only
        exact ih hmem'
      | some w =>
        dsimp only
        by_cases hw : w = ""
        · rw [if_pos hw]
          exact ih hmem'
        · rw [if_neg hw, lookupA, if_neg hqk]
          exact ih hmem'

theorem foldl_clsSet_eq_map (stringify : J → String) :
    ∀ (snap : List (String × J)) (acc : List (String × String)),
      NodupKeys snap → (∀ x ∈ keysA snap, x ∉ keysA acc) →
      snap.foldl (fun acc p => clsSet stringify acc p.1 p.2) acc =
        acc ++ snap.map (fun p => (p.1, stringify p.2)) := by
  intro snap
  induction snap with
  | nil =>
    intro acc _ _
    simp
  | cons p t ih =>
    intro acc hnd hdisj
    obtain ⟨hpt, hndt⟩ := nodupKeys_cons hnd
    rw [List.foldl_cons]
    have hins : clsSet stringify acc p.1 p.2 = acc ++ [(p.1, stringify p.2)] := by
      unfold clsSet insertA
      rw [if_neg (hdisj p.1 (by unfold keysA; exact List.mem_map_of_mem Prod.fst (List.mem_cons_self p t)))]
    rw [hins, ih (acc ++ [(p.1, stringify p.2)]) hndt ?hdisj]
    · simp
    case hdisj =>
      intro x hx
      unfold keysA at hx ⊢
      rw [List.map_append]
      simp only [List.mem_append]
      rintro (hxa | hxp)
      · exact hdisj x (by unfold keysA at *; simp [hx]) hxa
      · simp at hxp
        rw [hxp] at hx
        exact hpt hx

theorem lookupA_map_value (stringify : J → String) (k : String) :
    ∀ snap : List (String × J),
      lookupA (snap.map fun p => (p.1, stringify p.2)) k =
        (lookupA snap k).map stringify := by
  intro snap
  induction snap with
  | nil => rfl
  | cons p t ih =>
    rw [List.map_cons, lookupA, lookupA]
    by_cases hpk : p.1 = k
    · simp [hpk]
    · simp only [if_neg hpk]
      exact ih

end Snapshot

/-! A concrete executable instantiation of the abstract JSON codec, used by
the witnesses and counterexamples: Boolean JSON values with their literal
serializations.  `parseB` fails on any other string, the way `JSON.parse`
throws on a non-JSON string; `ofStringB` stands for the JS string viewed
as a JSON value. -/

def stringifyB : Bool → String := fun b => if b then "true" else "false"

def parseB : String → Option Bool := fun s =>
  if s = "true" then some true else if s = "false" then some false else none

def ofStringB : String → Bool := fun _ => true

section ClaimC8

variable {J : Type}

/-- Claim C8 (amended): the snapshot round trip —
`saveSnapshotToLocal` then `loadSnapshotFromLocal` into an empty store —
reproduces `get(k)` **for every key whose stored string is nonempty and
parses as JSON** (in particular every key written through `set`).  The
restriction is forced: a key holding a non-JSON string reads as `null`
before the round trip (the parse throws, degraded to `null`), but the
snapshot's `catch` stores the raw string, so after the round trip the key
reads as that string — see the counterexample.  Codec laws assumed:
`parse ∘ stringify = some` and `stringify` never returns the empty
string. -/
theorem claim_C8_snapshot_roundtrip (stringify : J → String)
    (parse : String → Option J) (ofString : String → J)
    (hrt : ∀ v, parse (stringify v) = some v)
    (hsne : ∀ v, stringify v ≠ "")
    (st : List (String × String)) (hnd : NodupKeys st)
    (k s : String) (hlk : lookupA st k = some s) (hs : s ≠ "")
    (v : J) (hp : parse s = some v) :
    clsGet parse
      (loadSnapshotFromLocal stringify
        (saveSnapshotToLocal parse ofString st (fun _ => false)) []) k
      = clsGet parse st k := by
  have hrhs : clsGet parse st k = some v := by
    unfold clsGet
    rw [hlk]
    dsimp only
    rw [if_neg hs, hp]
  have hsnap : saveSnapshotToLocal parse ofString st (fun _ => false) =
      some (snapList parse ofString st (keysA st)) := by
    unfold saveSnapshotToLocal
    rw [createSnapshot_noFault]
  set snap := snapList parse ofString st (keysA st) with hsnapdef
  have hndsnap : NodupKeys snap :=
    List.Nodup.sublist (keysA_snapList_sublist parse ofString st (keysA st)) hnd
  have hrestored : loadSnapshotFromLocal stringify
      (some snap) ([] : List (String × String)) =
      snap.map (fun p => (p.1, stringify p.2)) := by
    unfold loadSnapshotFromLocal
    dsimp only
    rw [foldl_clsSet_eq_map stringify snap [] hndsnap (by intro x _; simp [keysA])]
    simp
  have hkmem : k ∈ keysA st := by
    have := mem_of_lookupA hlk
    unfold keysA
    exact List.mem_map_of_mem Prod.fst this
  have hlsnap : lookupA snap k = some (parseOr parse ofString s) :=
    lookupA_snapList parse ofString st hlk hs (keysA st) hkmem
  have hpor : parseOr parse ofString s = v := by
    unfold parseOr
    rw [hp]
  rw [hsnap, hrestored, hrhs]
  unfold clsGet
  rw [lookupA_map_value, hlsnap, hpor]
  dsimp only [Option.map]
  rw [if_neg (hsne v), hrt v]

/-- Counterexample to claim C8 as stated: the remote tier holds the
non-JSON string `"xyz"` under key `k`.  Before the round trip `get(k)` is
`null` (the parse throws and is degraded); `createSnapshot`'s `catch`
keeps the raw string as the snapshot value, so after the round trip
`get(k)` returns that string as a value — the round trip does not
reproduce the same `get(k)` result for a key present at snapshot time. -/
theorem claim_C8_counterexample :
    clsGet parseB
      (loadSnapshotFromLocal stringifyB
        (saveSnapshotToLocal parseB ofStringB [("k", "xyz")] (fun _ => false)) [])
      "k" = some true
    ∧ clsGet parseB [("k", "xyz")] "k" = none := by
  constructor
  · rfl
  · rfl

/-- Witness for C8: the amended theorem applied to the concrete Boolean
codec and a store whose single key holds the valid serialization
`"true"`. -/
theorem claim_C8_snapshot_roundtrip_witness :
    clsGet parseB
      (loadSnapshotFromLocal stringifyB
        (saveSnapshotToLocal parseB ofStringB [("k", "true")] (fun _ => false)) [])
      "k" = clsGet parseB [("k", "true")] "k" :=
  claim_C8_snapshot_roundtrip stringifyB parseB ofStringB
    (by decide) (by decide) [("k", "true")] (by unfold NodupKeys keysA; decide)
    "k" "true" rfl (by decide) true rfl

end ClaimC8

section ClaimC9

/-- Claim C9 (amended): `createSnapshot` enumerates the full keyspace and,
when no read throws, the snapshot contains every key holding a nonempty
value (a key whose read returns no value is skipped without affecting the
rest); but a **thrown** read on any single key is not skipped per key: the
surrounding `catch` aborts the whole loop and returns the **empty**
snapshot, losing every other readable key — see the counterexample. -/
theorem claim_C9_snapshot_best_effort {J : Type} (parse : String → Option J)
    (ofString : String → J) :
    (∀ (st : List (String × String)) (k s : String),
      NodupKeys st → lookupA st k = some s → s ≠ "" →
      (k, parseOr parse ofString s) ∈ createSnapshot parse ofString st (fun _ => false))
    ∧ (∀ (st : List (String × String)) (fault : String → Bool),
      (∃ k ∈ keysA st, fault k = true) →
      createSnapshot parse ofString st fault = []) := by
  constructor
  · intro st k s hnd hlk hs
    rw [createSnapshot_noFault]
    have hkmem : k ∈ keysA st := by
      have := mem_of_lookupA hlk
      unfold keysA
      exact List.mem_map_of_mem Prod.fst this
    exact mem_of_lookupA (lookupA_snapList parse ofString st hlk hs (keysA st) hkmem)
  · intro st fault h
    unfold createSnapshot
    rw [snapGo_fault parse ofString st fault (keysA st) [] h]

/-- Counterexample to claim C9 as stated: the keyspace holds readable keys
`a` and `b`; the read of `a` throws.  The claim says `a` is skipped and
the snapshot still contains `b`; the code instead aborts in the outer
`catch` and returns the empty snapshot, omitting the readable key `b`. -/
theorem claim_C9_counterexample :
    createSnapshot parseB ofStringB [("a", "true"), ("b", "true")]
      (fun k => k == "a") = []
    ∧ lookupA [("a", "true"), ("b", "true")] "b" = some "true" := by
  constructor
  · rfl
  · rfl

/-- Witness for C9: the amended theorem applied at concrete inputs — with
no faults the readable key `b` appears in the snapshot; with a fault on
`b` the snapshot is empty. -/
theorem claim_C9_snapshot_best_effort_witness :
    ("b", true) ∈ createSnapshot parseB ofStringB [("b", "true")] (fun _ => false)
    ∧ createSnapshot parseB ofStringB [("a", "true"), ("b", "true")]
        (fun k => k == "b") = [] :=
  ⟨(claim_C9_snapshot_best_effort parseB ofStringB).1 [("b", "true")] "b" "true"
      (by unfold NodupKeys keysA; decide) rfl (by decide),
    (claim_C9_snapshot_best_effort parseB ofStringB).2
      [("a", "true"), ("b", "true")] (fun k => k == "b")
      ⟨"b", by decide, by decide⟩⟩

end ClaimC9

end SC
